import Mathlib

/-!
Verification of the Common Voice metadata/audio joiner
(`CommonVoice._generate_examples` in `example-common_voice_17_0.py`).

The Python dictionaries are modelled as association lists with unique keys:
`mapGet` is dictionary lookup, `mapSet` is `d[k] = v` (replacing in place when
the key is present, appending otherwise, as Python dicts do), `mapErase` is
`del d[k]`.  Transcript rows map field names to string values; output records
additionally carry the audio value `{"path": ..., "bytes": ...}`.  Fallible
dictionary indexing (`row["path"]`, `prefixes[i]`) is modelled with `Option`:
`none` is a raised `KeyError`/`IndexError`.
-/

namespace CommonVoice

/-- Field values of an output record: plain strings, or the audio object
`{"path": p, "bytes": b}` set by the joiner (bytes modelled as a string). -/
inductive Value where
  | str : String → Value
  | audio : String → String → Value
deriving DecidableEq, Repr

/-- A transcript row: a dictionary from field names to string values. -/
abbrev Row := List (String × String)

/-- An output record: a dictionary from field names to `Value`s. -/
abbrev Record := List (String × Value)

/-- The metadata table: a dictionary from filenames to transcript rows. -/
abbrev Table := List (String × Row)

/-- Dictionary lookup (`d[k]` as an `Option`, `d.get(k)`). -/
def mapGet {β : Type} : List (String × β) → String → Option β
  | [], _ => none
  | p :: ps, k => if p.1 = k then some p.2 else mapGet ps k

/-- Dictionary key-membership test (`k in d`). -/
def hasKey {β : Type} : List (String × β) → String → Bool
  | [], _ => false
  | p :: ps, k => p.1 = k || hasKey ps k

/-- Replace the value at every cell whose key is `k` (helper for `mapSet`). -/
def mapReplace {β : Type} : List (String × β) → String → β → List (String × β)
  | [], _, _ => []
  | p :: ps, k, v => (if p.1 = k then (k, v) else p) :: mapReplace ps k v

/-- Dictionary update `d[k] = v`: replaces in place when `k` is present,
appends at the end otherwise (Python dict insertion-order semantics). -/
def mapSet {β : Type} (m : List (String × β)) (k : String) (v : β) :
    List (String × β) :=
  if hasKey m k then mapReplace m k v else m ++ [(k, v)]

/-- Dictionary deletion `del d[k]`. -/
def mapErase {β : Type} : List (String × β) → String → List (String × β)
  | [], _ => []
  | p :: ps, k => if p.1 = k then mapErase ps k else p :: mapErase ps k

theorem hasKey_eq_isSome {β : Type} (m : List (String × β)) (k : String) :
    hasKey m k = (mapGet m k).isSome := by
  induction m with
  | nil => rfl
  | cons p ps ih =>
    simp only [hasKey, mapGet]
    split <;> simp_all

theorem mapGet_append {β : Type} (m l : List (String × β)) (k : String) :
    mapGet (m ++ l) k =
      (match mapGet m k with | some v => some v | none => mapGet l k) := by
  induction m with
  | nil => rfl
  | cons p ps ih =>
    simp only [List.cons_append, mapGet]
    split <;> simp_all

theorem mapGet_mapReplace_self {β : Type} (m : List (String × β)) (k : String)
    (v : β) (h : hasKey m k = true) : mapGet (mapReplace m k v) k = some v := by
  induction m with
  | nil => simp [hasKey] at h
  | cons p ps ih =>
    simp only [hasKey, Bool.or_eq_true, decide_eq_true_eq] at h
    simp only [mapReplace, mapGet]
    by_cases hp : p.1 = k
    · simp [hp]
    · simp only [hp, if_false]
      exact ih (h.resolve_left hp)

theorem mapGet_mapReplace_ne {β : Type} (m : List (String × β)) (k k' : String)
    (v : β) (h : k' ≠ k) : mapGet (mapReplace m k v) k' = mapGet m k' := by
  induction m with
  | nil => rfl
  | cons p ps ih =>
    obtain ⟨a, b⟩ := p
    by_cases hp : a = k
    · subst hp
      simp [mapReplace, mapGet, Ne.symm h, ih]
    · simp [mapReplace, mapGet, hp, ih]

theorem mapGet_mapSet_self {β : Type} (m : List (String × β)) (k : String)
    (v : β) : mapGet (mapSet m k v) k = some v := by
  unfold mapSet
  by_cases h : hasKey m k
  · rw [if_pos h]
    exact mapGet_mapReplace_self m k v h
  · rw [if_neg h, mapGet_append]
    rw [hasKey_eq_isSome] at h
    cases hm : mapGet m k with
    | some v' => simp [hm] at h
    | none => simp [mapGet]

theorem mapGet_mapSet_ne {β : Type} (m : List (String × β)) (k k' : String)
    (v : β) (h : k' ≠ k) : mapGet (mapSet m k v) k' = mapGet m k' := by
  unfold mapSet
  by_cases hk : hasKey m k
  · rw [if_pos hk]
    exact mapGet_mapReplace_ne m k k' v h
  · rw [if_neg hk, mapGet_append]
    cases hm : mapGet m k' with
    | some v' => simp [hm]
    | none => simp [hm, mapGet, Ne.symm h]

theorem mapGet_mapErase_self {β : Type} (m : List (String × β)) (k : String) :
    mapGet (mapErase m k) k = none := by
  induction m with
  | nil => rfl
  | cons p ps ih =>
    simp only [mapErase]
    by_cases hp : p.1 = k
    · simp [hp, ih]
    · simp [mapGet, hp, ih]

theorem mapGet_mapErase_ne {β : Type} (m : List (String × β)) (k k' : String)
    (h : k' ≠ k) : mapGet (mapErase m k) k' = mapGet m k' := by
  induction m with
  | nil => rfl
  | cons p ps ih =>
    simp only [mapErase, mapGet]
    by_cases hp : p.1 = k
    · rw [if_pos hp, ih, if_neg (hp ▸ fun hk => h hk.symm)]
    · simp only [hp, if_false, mapGet]
      split <;> simp_all

theorem mem_keys_of_mapGet {β : Type} (m : List (String × β)) (k : String)
    (v : β) (h : mapGet m k = some v) : k ∈ m.map Prod.fst := by
  induction m with
  | nil => simp [mapGet] at h
  | cons p ps ih =>
    simp only [mapGet] at h
    by_cases hp : p.1 = k
    · simp [hp]
    · simp only [hp, if_false] at h
      simp [ih h]

theorem mapGet_isSome_of_mem_keys {β : Type} (m : List (String × β))
    (k : String) (h : k ∈ m.map Prod.fst) : ∃ v, mapGet m k = some v := by
  induction m with
  | nil => simp at h
  | cons p ps ih =>
    simp only [List.map_cons, List.mem_cons] at h
    simp only [mapGet]
    by_cases hp : p.1 = k
    · exact ⟨p.2, by simp [hp]⟩
    · simp only [hp, if_false]
      exact ih (h.resolve_left (fun hk => hp hk.symm))

/-! String and path helpers, modelling Python's `str.endswith`,
`str.startswith`, `os.path.split` (only its tail is used) and
`os.path.join` (POSIX semantics, two arguments). -/

/-- Python's `s.endswith(t)`: `t` is a suffix of `s`. -/
def strEndsWith (s t : String) : Bool := decide (t.data <:+ s.data)

/-- Python's `s.startswith(t)`: `t` is a prefix of `s`. -/
def strStartsWith (s t : String) : Bool := decide (t.data <+: s.data)

/-- Tail of `os.path.split`: the longest suffix not containing `'/'`. -/
def baseNameChars (l : List Char) : List Char :=
  (l.reverse.takeWhile (fun c => decide (c ≠ '/'))).reverse

/-- Base filename of a path (second component of `os.path.split(path)`). -/
def baseName (s : String) : String := String.mk (baseNameChars s.data)

/-- POSIX `os.path.join(a, b)`. -/
def osPathJoin (a b : String) : String :=
  if strStartsWith b "/" then b
  else if a = "" ∨ strEndsWith a "/" then a ++ b
  else a ++ "/" ++ b

theorem strEndsWith_append (s t : String) : strEndsWith (s ++ t) t = true := by
  simp only [strEndsWith, String.data_append, decide_eq_true_eq]
  exact List.suffix_append s.data t.data

theorem takeWhile_append_slash (p : Char → Bool) (hp : p '/' = false)
    (l₁ l₂ : List Char) : (l₁ ++ '/' :: l₂).takeWhile p = l₁.takeWhile p := by
  induction l₁ with
  | nil => simp [List.takeWhile_cons, hp]
  | cons c cs ih => simp [List.takeWhile_cons, ih]

theorem baseNameChars_append_slash (l₁ l₂ : List Char) :
    baseNameChars (l₁ ++ '/' :: l₂) = baseNameChars l₂ := by
  simp only [baseNameChars, List.reverse_append, List.reverse_cons]
  rw [List.append_assoc, List.singleton_append,
    takeWhile_append_slash _ (by decide)]

/-- `os.path.join` never changes the base filename of its second argument. -/
theorem baseName_osPathJoin (a b : String) :
    baseName (osPathJoin a b) = baseName b := by
  unfold osPathJoin
  by_cases hb : strStartsWith b "/"
  · simp [hb]
  · rw [if_neg hb]
    by_cases ha : a = "" ∨ strEndsWith a "/"
    · rw [if_pos ha]
      rcases ha with ha | ha
      · simp [ha, baseName]
      · simp only [strEndsWith, decide_eq_true_eq] at ha
        obtain ⟨init, hinit⟩ := ha
        simp only [baseName, String.data_append]
        have hdat : a.data = init ++ ['/'] := by
          rw [← hinit]
        rw [hdat, List.append_assoc, List.singleton_append,
          baseNameChars_append_slash]
    · rw [if_neg ha]
      simp only [baseName, String.data_append]
      rw [List.append_assoc, List.singleton_append, baseNameChars_append_slash]

/-! The joiner itself, translated from `CommonVoice._generate_examples`.
`data_fields = list(self._info().features.keys())` is the fixed schema. -/

/-- Keys of the `datasets.Features` dictionary declared in `_info`, in
declaration order. -/
def dataFields : List String :=
  ["client_id", "path", "audio", "sentence", "up_votes", "down_votes",
   "age", "gender", "accent", "locale", "segment", "variant"]

/-- Lines 177-178: `if not row["path"].endswith(".mp3"): row["path"] += ".mp3"`.
Reading `row["path"]` raises `KeyError` (`none`) when the key is absent. -/
def fixPath (row : Row) : Option Row :=
  match mapGet row "path" with
  | none => none
  | some p =>
      some (if strEndsWith p ".mp3" then row else mapSet row "path" (p ++ ".mp3"))

/-- Lines 180-182: `if "accents" in row: row["accent"] = row["accents"];
del row["accents"]`. -/
def fixAccents (row : Row) : Row :=
  match mapGet row "accents" with
  | none => row
  | some a => mapErase (mapSet row "accent" a) "accents"

/-- Lines 184-186: `for field in data_fields: if field not in row:
row[field] = ""`. -/
def fillFields (df : List String) (row : Row) : Row :=
  df.foldl (fun r f => if hasKey r f then r else mapSet r f "") row

/-- Lines 177-186: the whole per-row normalization. -/
def processRow (df : List String) (row : Row) : Option Row :=
  match fixPath row with
  | none => none
  | some r => some (fillFields df (fixAccents r))

/-- Lines 176-187 starting from table `m`: process each row and insert it
under its (possibly extension-appended) `path` value. -/
def buildFrom (df : List String) (m : Table) : List Row → Option Table
  | [] => some m
  | row :: rest =>
      match processRow df row with
      | none => none
      | some row' =>
          match mapGet row' "path" with
          | none => none
          | some k => buildFrom df (mapSet m k row') rest

/-- Lines 173-187: `metadata = {}` followed by the reading loop. -/
def buildMetadata (df : List String) (rows : List Row) : Option Table :=
  buildFrom df [] rows

/-- Lines 193-197: `result = dict(metadata[filename])`, then
`result["audio"] = {"path": path, "bytes": file.read()}` and
`result["path"] = path`. -/
def mkRecord (row : Row) (fp : String) (bytes : String) : Record :=
  mapSet (mapSet (row.map (fun p => (p.1, Value.str p.2))) "audio"
    (Value.audio fp bytes)) "path" (Value.str fp)

/-- Line 195: `path = os.path.join(local_extracted_archive_paths[i], path) if
local_extracted_archive_paths else path`.  The prefix list is `None` when
absent from `gen_kwargs`; `None` and `[]` are both falsy.  Out-of-bounds
indexing is an `IndexError` (`none`). -/
def resolvePath (pfx : Option (List String)) (i : Nat) (path : String) :
    Option String :=
  match pfx with
  | none => some path
  | some [] => some path
  | some (q :: qs) => ((q :: qs).get? i).map (fun pre => osPathJoin pre path)

/-- Lines 190-198, one archive entry `e = (path, file)` of archive number `i`:
either extend the accumulated output, skip the entry, or raise. -/
def stepEntry (md : Table) (pfx : Option (List String)) (i : Nat)
    (acc : List (String × Record)) (e : String × String) :
    Option (List (String × Record)) :=
  match mapGet md (baseName e.1) with
  | none => some acc
  | some row =>
      match resolvePath pfx i e.1 with
      | none => none
      | some fp => some (acc ++ [(fp, mkRecord row fp e.2)])

/-- Line 190: the inner `for path, file in audio_archive` loop. -/
def runEntries (md : Table) (pfx : Option (List String)) (i : Nat) :
    List (String × String) → List (String × Record) →
      Option (List (String × Record))
  | [], acc => some acc
  | e :: es, acc =>
      match stepEntry md pfx i acc e with
      | none => none
      | some acc' => runEntries md pfx i es acc'

/-- Line 189: the outer `for i, audio_archive in enumerate(archives)` loop,
starting at archive index `i`. -/
def runArchives (md : Table) (pfx : Option (List String)) :
    Nat → List (List (String × String)) → List (String × Record) →
      Option (List (String × Record))
  | _, [], acc => some acc
  | i, ar :: ars, acc =>
      match runEntries md pfx i ar acc with
      | none => none
      | some acc' => runArchives md pfx (i + 1) ars acc'

/-- Lines 171-198: the whole generator.  The emitted lazy sequence is
modelled as the list of `(key, record)` pairs in yield order; `none` is an
uncaught exception. -/
def generateExamples (df : List String) (rows : List Row)
    (pfx : Option (List String)) (archives : List (List (String × String))) :
    Option (List (String × Record)) :=
  match buildMetadata df rows with
  | none => none
  | some md => runArchives md pfx 0 archives []

/-! Lemmas about the row-normalization stages. -/

/-- The table key a row will be stored under, when processing succeeds. -/
def rowKey (df : List String) (row : Row) : Option String :=
  match processRow df row with
  | none => none
  | some row' => mapGet row' "path"

theorem fixPath_path (row r : Row) (h : fixPath row = some r) :
    ∃ p', mapGet r "path" = some p' ∧ strEndsWith p' ".mp3" = true := by
  unfold fixPath at h
  cases hp : mapGet row "path" with
  | none => rw [hp] at h; exact absurd h (by simp)
  | some p =>
    simp only [hp] at h
    by_cases he : strEndsWith p ".mp3"
    · rw [if_pos he] at h
      exact ⟨p, by rw [← Option.some_inj.mp h]; exact hp, he⟩
    · rw [if_neg he] at h
      refine ⟨p ++ ".mp3", ?_, strEndsWith_append p ".mp3"⟩
      rw [← Option.some_inj.mp h]
      exact mapGet_mapSet_self row "path" (p ++ ".mp3")

theorem fixPath_get_ne (row r : Row) (f : String) (hf : f ≠ "path")
    (h : fixPath row = some r) : mapGet r f = mapGet row f := by
  unfold fixPath at h
  cases hp : mapGet row "path" with
  | none => rw [hp] at h; exact absurd h (by simp)
  | some p =>
    simp only [hp] at h
    by_cases he : strEndsWith p ".mp3"
    · rw [if_pos he] at h
      rw [← Option.some_inj.mp h]
    · rw [if_neg he] at h
      rw [← Option.some_inj.mp h]
      exact mapGet_mapSet_ne row "path" f (p ++ ".mp3") hf

theorem fixAccents_get_ne (row : Row) (f : String) (h1 : f ≠ "accent")
    (h2 : f ≠ "accents") : mapGet (fixAccents row) f = mapGet row f := by
  unfold fixAccents
  cases ha : mapGet row "accents" with
  | none => rfl
  | some a =>
    rw [mapGet_mapErase_ne _ _ _ h2, mapGet_mapSet_ne _ _ _ _ h1]

theorem fixAccents_accents (row : Row) :
    mapGet (fixAccents row) "accents" = none := by
  unfold fixAccents
  cases ha : mapGet row "accents" with
  | none => exact ha
  | some a => exact mapGet_mapErase_self _ "accents"

theorem fixAccents_accent (row : Row) (a : String)
    (h : mapGet row "accents" = some a) :
    mapGet (fixAccents row) "accent" = some a := by
  unfold fixAccents
  rw [h, mapGet_mapErase_ne _ _ _ (by decide), mapGet_mapSet_self]

theorem fillFields_preserves_some (df : List String) (row : Row) (f : String)
    (v : String) (h : mapGet row f = some v) :
    mapGet (fillFields df row) f = some v := by
  induction df generalizing row with
  | nil => exact h
  | cons g gs ih =>
    simp only [fillFields, List.foldl_cons]
    by_cases hg : hasKey row g
    · rw [if_pos hg]
      exact ih row h
    · rw [if_neg hg]
      apply ih
      by_cases hgf : g = f
      · subst hgf
        rw [hasKey_eq_isSome, h] at hg
        simp at hg
      · rw [mapGet_mapSet_ne _ _ _ _ (fun he => hgf he.symm)]
        exact h

theorem fillFields_get_of_not_mem (df : List String) (row : Row) (f : String)
    (h : f ∉ df) : mapGet (fillFields df row) f = mapGet row f := by
  induction df generalizing row with
  | nil => rfl
  | cons g gs ih =>
    simp only [List.mem_cons, not_or] at h
    simp only [fillFields, List.foldl_cons]
    by_cases hg : hasKey row g
    · rw [if_pos hg]
      exact ih row h.2
    · rw [if_neg hg]
      have hrec := ih (mapSet row g "") h.2
      simp only [fillFields] at hrec
      rw [hrec]
      exact mapGet_mapSet_ne _ _ _ _ h.1

theorem fillFields_fills (df : List String) (row : Row) (f : String)
    (hmem : f ∈ df) (h : mapGet row f = none) :
    mapGet (fillFields df row) f = some "" := by
  induction df generalizing row with
  | nil => simp at hmem
  | cons g gs ih =>
    simp only [fillFields, List.foldl_cons]
    by_cases hgf : g = f
    · subst hgf
      have hk : hasKey row g = false := by rw [hasKey_eq_isSome, h]; rfl
      rw [hk]
      simp only [Bool.false_eq_true, if_false]
      exact fillFields_preserves_some gs _ g "" (mapGet_mapSet_self row g "")
    · have hmem' : f ∈ gs := by
        cases List.mem_cons.mp hmem with
        | inl he => exact absurd he.symm hgf
        | inr hm => exact hm
      by_cases hg : hasKey row g
      · rw [if_pos hg]
        exact ih _ hmem' h
      · rw [if_neg hg]
        apply ih _ hmem'
        rw [mapGet_mapSet_ne _ _ _ _ (fun he => hgf he.symm)]
        exact h

/-- A successfully processed row holds its final path, ending in `.mp3`. -/
theorem processRow_path (df : List String) (row row' : Row)
    (h : processRow df row = some row') :
    ∃ p', mapGet row' "path" = some p' ∧ strEndsWith p' ".mp3" = true := by
  unfold processRow at h
  cases hf : fixPath row with
  | none => rw [hf] at h; exact absurd h (by simp)
  | some r =>
    rw [hf] at h
    obtain ⟨p', hp', he⟩ := fixPath_path row r hf
    refine ⟨p', ?_, he⟩
    rw [← Option.some_inj.mp h]
    apply fillFields_preserves_some
    rw [fixAccents_get_ne r "path" (by decide) (by decide)]
    exact hp'

/-! Structural lemmas about the metadata-table construction. -/

theorem buildFrom_cons_fail (df : List String) (m : Table) (row : Row)
    (rest : List Row) (h1 : processRow df row = none) :
    buildFrom df m (row :: rest) = none := by
  simp [buildFrom, h1]

theorem buildFrom_cons_nokey (df : List String) (m : Table) (row row' : Row)
    (rest : List Row) (h1 : processRow df row = some row')
    (h2 : mapGet row' "path" = none) : buildFrom df m (row :: rest) = none := by
  simp [buildFrom, h1, h2]

theorem buildFrom_cons_step (df : List String) (m : Table) (row row' : Row)
    (rest : List Row) (k : String) (h1 : processRow df row = some row')
    (h2 : mapGet row' "path" = some k) :
    buildFrom df m (row :: rest) = buildFrom df (mapSet m k row') rest := by
  simp [buildFrom, h1, h2]

theorem buildFrom_append (df : List String) (ys : List Row) :
    ∀ (xs : List Row) (m : Table),
      buildFrom df m (xs ++ ys) =
        (match buildFrom df m xs with
          | none => none
          | some m' => buildFrom df m' ys) := by
  intro xs
  induction xs with
  | nil => intro m; rfl
  | cons row rest ih =>
    intro m
    cases hpr : processRow df row with
    | none =>
      rw [List.cons_append, buildFrom_cons_fail df m row _ hpr,
        buildFrom_cons_fail df m row rest hpr]
    | some row' =>
      cases hk : mapGet row' "path" with
      | none =>
        rw [List.cons_append, buildFrom_cons_nokey df m row row' _ hpr hk,
          buildFrom_cons_nokey df m row row' rest hpr hk]
      | some k =>
        rw [List.cons_append, buildFrom_cons_step df m row row' _ k hpr hk,
          buildFrom_cons_step df m row row' rest k hpr hk]
        exact ih (mapSet m k row')

/-- Every binding of a built table either was in the seed table or is the
processed form of some input row, stored under its final `path` value. -/
theorem buildFrom_inv (df : List String) :
    ∀ (rows : List Row) (m md : Table) (k : String) (row' : Row),
      buildFrom df m rows = some md → mapGet md k = some row' →
        mapGet m k = some row' ∨
          ∃ row ∈ rows, processRow df row = some row' ∧
            mapGet row' "path" = some k := by
  intro rows
  induction rows with
  | nil =>
    intro m md k row' hb hk
    simp only [buildFrom] at hb
    exact Or.inl (Option.some_inj.mp hb ▸ hk)
  | cons row rest ih =>
    intro m md k row' hb hk
    cases hpr : processRow df row with
    | none => rw [buildFrom_cons_fail df m row rest hpr] at hb; simp at hb
    | some r' =>
      cases hpk : mapGet r' "path" with
      | none =>
        rw [buildFrom_cons_nokey df m row r' rest hpr hpk] at hb
        simp at hb
      | some k0 =>
        rw [buildFrom_cons_step df m row r' rest k0 hpr hpk] at hb
        rcases ih (mapSet m k0 r') md k row' hb hk with hm | ⟨row2, hmem, hp2, hk2⟩
        · by_cases hkk : k = k0
          · subst hkk
            rw [mapGet_mapSet_self] at hm
            refine Or.inr ⟨row, List.mem_cons_self row rest, ?_, ?_⟩
            · rw [hpr, Option.some_inj.mp hm]
            · rw [← Option.some_inj.mp hm]; exact hpk
          · rw [mapGet_mapSet_ne _ _ _ _ hkk] at hm
            exact Or.inl hm
        · exact Or.inr ⟨row2, List.mem_cons_of_mem row hmem, hp2, hk2⟩

/-- Rows whose key differs from `k` never change the binding of `k`. -/
theorem buildFrom_stable (df : List String) :
    ∀ (rows : List Row) (m md : Table) (k : String),
      buildFrom df m rows = some md →
      (∀ row ∈ rows, rowKey df row ≠ some k) →
      mapGet md k = mapGet m k := by
  intro rows
  induction rows with
  | nil =>
    intro m md k hb _
    simp only [buildFrom] at hb
    rw [Option.some_inj.mp hb]
  | cons row rest ih =>
    intro m md k hb hne
    cases hpr : processRow df row with
    | none => rw [buildFrom_cons_fail df m row rest hpr] at hb; simp at hb
    | some r' =>
      cases hpk : mapGet r' "path" with
      | none =>
        rw [buildFrom_cons_nokey df m row r' rest hpr hpk] at hb
        simp at hb
      | some k0 =>
        rw [buildFrom_cons_step df m row r' rest k0 hpr hpk] at hb
        have hk0 : rowKey df row = some k0 := by
          unfold rowKey; rw [hpr]; exact hpk
        have hne0 : k ≠ k0 := by
          intro he
          exact hne row (List.mem_cons_self row rest) (he ▸ hk0)
        rw [ih (mapSet m k0 r') md k hb
          (fun r hr => hne r (List.mem_cons_of_mem row hr))]
        exact mapGet_mapSet_ne _ _ _ _ hne0

/-- Reading the metadata never raises, provided each row processes. -/
theorem buildFrom_total (df : List String) :
    ∀ (rows : List Row) (m : Table),
      (∀ row ∈ rows, (rowKey df row).isSome = true) →
      ∃ md, buildFrom df m rows = some md := by
  intro rows
  induction rows with
  | nil => intro m _; exact ⟨m, rfl⟩
  | cons row rest ih =>
    intro m hall
    have hk := hall row (List.mem_cons_self row rest)
    unfold rowKey at hk
    cases hpr : processRow df row with
    | none => rw [hpr] at hk; simp at hk
    | some r' =>
      rw [hpr] at hk
      simp only [Option.isSome] at hk
      cases hpk : mapGet r' "path" with
      | none => rw [hpk] at hk; simp at hk
      | some k0 =>
        obtain ⟨md, hmd⟩ :=
          ih (mapSet m k0 r') (fun r hr => hall r (List.mem_cons_of_mem row hr))
        exact ⟨md, by rw [buildFrom_cons_step df m row r' rest k0 hpr hpk]; exact hmd⟩

/-! Lemmas about the output-record constructor. -/

theorem mkRecord_path (row : Row) (fp b : String) :
    mapGet (mkRecord row fp b) "path" = some (Value.str fp) :=
  mapGet_mapSet_self _ "path" _

theorem mkRecord_audio (row : Row) (fp b : String) :
    mapGet (mkRecord row fp b) "audio" = some (Value.audio fp b) := by
  unfold mkRecord
  rw [mapGet_mapSet_ne _ _ _ _ (by decide), mapGet_mapSet_self]

theorem mapGet_map_str (row : Row) (f : String) :
    mapGet (row.map (fun p => (p.1, Value.str p.2))) f =
      (mapGet row f).map Value.str := by
  induction row with
  | nil => rfl
  | cons p ps ih =>
    simp only [List.map_cons, mapGet]
    by_cases hp : p.1 = f
    · simp [hp]
    · simp [hp, ih]

theorem mkRecord_other (row : Row) (fp b f : String) (h1 : f ≠ "path")
    (h2 : f ≠ "audio") :
    mapGet (mkRecord row fp b) f = (mapGet row f).map Value.str := by
  unfold mkRecord
  rw [mapGet_mapSet_ne _ _ _ _ h1, mapGet_mapSet_ne _ _ _ _ h2, mapGet_map_str]

/-- Resolving against an extraction prefix never changes the base filename. -/
theorem baseName_resolvePath (pfx : Option (List String)) (i : Nat)
    (path fp : String) (h : resolvePath pfx i path = some fp) :
    baseName fp = baseName path := by
  cases pfx with
  | none =>
    simp only [resolvePath] at h
    rw [← Option.some_inj.mp h]
  | some l =>
    cases l with
    | nil =>
      simp only [resolvePath] at h
      rw [← Option.some_inj.mp h]
    | cons q qs =>
      simp only [resolvePath] at h
      cases hg : (q :: qs).get? i with
      | none => rw [hg] at h; exact absurd h (by simp)
      | some pre =>
        rw [hg] at h
        simp only [Option.map_some'] at h
        rw [← Option.some_inj.mp h]
        exact baseName_osPathJoin pre path

/-! Lemmas about the generation loop. -/

theorem stepEntry_skip (md : Table) (pfx : Option (List String)) (i : Nat)
    (acc : List (String × Record)) (e : String × String)
    (h : mapGet md (baseName e.1) = none) : stepEntry md pfx i acc e = some acc := by
  simp [stepEntry, h]

theorem stepEntry_emit (md : Table) (pfx : Option (List String)) (i : Nat)
    (acc : List (String × Record)) (e : String × String) (row : Row)
    (fp : String) (h : mapGet md (baseName e.1) = some row)
    (hr : resolvePath pfx i e.1 = some fp) :
    stepEntry md pfx i acc e = some (acc ++ [(fp, mkRecord row fp e.2)]) := by
  simp [stepEntry, h, hr]

theorem runEntries_cons_skip (md : Table) (pfx : Option (List String)) (i : Nat)
    (e : String × String) (es : List (String × String))
    (acc : List (String × Record)) (h : mapGet md (baseName e.1) = none) :
    runEntries md pfx i (e :: es) acc = runEntries md pfx i es acc := by
  simp [runEntries, stepEntry_skip md pfx i acc e h]

/-- Every emitted pair either was already accumulated or comes from a matching
entry of one of the archives, with prefix-resolved key and combined record. -/
theorem runEntries_mem (md : Table) (pfx : Option (List String)) (i : Nat) :
    ∀ (es : List (String × String)) (acc out : List (String × Record))
      (k : String) (rec : Record),
      runEntries md pfx i es acc = some out → (k, rec) ∈ out →
        (k, rec) ∈ acc ∨
          ∃ e ∈ es, ∃ row, mapGet md (baseName e.1) = some row ∧
            resolvePath pfx i e.1 = some k ∧ rec = mkRecord row k e.2 := by
  intro es
  induction es with
  | nil =>
    intro acc out k rec hr hm
    simp only [runEntries] at hr
    exact Or.inl (Option.some_inj.mp hr ▸ hm)
  | cons e es ih =>
    intro acc out k rec hr hm
    cases hmd : mapGet md (baseName e.1) with
    | none =>
      rw [runEntries_cons_skip md pfx i e es acc hmd] at hr
      rcases ih acc out k rec hr hm with h | ⟨e', he', hrest⟩
      · exact Or.inl h
      · exact Or.inr ⟨e', List.mem_cons_of_mem e he', hrest⟩
    | some row =>
      cases hrp : resolvePath pfx i e.1 with
      | none =>
        simp only [runEntries, stepEntry, hmd, hrp] at hr
        exact absurd hr (by simp)
      | some fp =>
        have hstep := stepEntry_emit md pfx i acc e row fp hmd hrp
        simp only [runEntries, hstep] at hr
        rcases ih _ out k rec hr hm with h | ⟨e', he', hrest⟩
        · rcases List.mem_append.mp h with h | h
          · exact Or.inl h
          · simp only [List.mem_singleton, Prod.mk.injEq] at h
            obtain ⟨h1, h2⟩ := h
            subst h1
            exact Or.inr ⟨e, List.mem_cons_self e es, row, hmd, hrp, h2⟩
        · exact Or.inr ⟨e', List.mem_cons_of_mem e he', hrest⟩

theorem runArchives_mem (md : Table) (pfx : Option (List String)) :
    ∀ (ars : List (List (String × String))) (i : Nat)
      (acc out : List (String × Record)) (k : String) (rec : Record),
      runArchives md pfx i ars acc = some out → (k, rec) ∈ out →
        (k, rec) ∈ acc ∨
          ∃ j ar, ars.get? j = some ar ∧ ∃ e ∈ ar, ∃ row,
            mapGet md (baseName e.1) = some row ∧
            resolvePath pfx (i + j) e.1 = some k ∧ rec = mkRecord row k e.2 := by
  intro ars
  induction ars with
  | nil =>
    intro i acc out k rec hr hm
    simp only [runArchives] at hr
    exact Or.inl (Option.some_inj.mp hr ▸ hm)
  | cons ar ars ih =>
    intro i acc out k rec hr hm
    cases hre : runEntries md pfx i ar acc with
    | none =>
      simp only [runArchives, hre] at hr
      exact absurd hr (by simp)
    | some acc' =>
      simp only [runArchives, hre] at hr
      rcases ih (i + 1) acc' out k rec hr hm with h | ⟨j, ar', hj, e, he, row, hrow, hrp, hrec⟩
      · rcases runEntries_mem md pfx i ar acc acc' k rec hre h with
          h' | ⟨e, he, row, hrow, hrp, hrec⟩
        · exact Or.inl h'
        · refine Or.inr ⟨0, ar, rfl, e, he, row, hrow, ?_, hrec⟩
          rw [Nat.add_zero]
          exact hrp
      · refine Or.inr ⟨j + 1, ar', by simpa using hj, e, he, row, hrow, ?_, hrec⟩
        rw [show i + (j + 1) = i + 1 + j by omega]
        exact hrp

theorem resolvePath_cons_eq (q : String) (qs : List String) (i : Nat)
    (p : String) (h : i < (q :: qs).length) :
    resolvePath (some (q :: qs)) i p =
      some (osPathJoin ((q :: qs).get ⟨i, h⟩) p) := by
  simp only [resolvePath]
  rw [List.get?_eq_get h]
  rfl

theorem resolvePath_total (pfx : Option (List String)) (i : Nat) (path : String)
    (h : ∀ q qs, pfx = some (q :: qs) → i < (q :: qs).length) :
    ∃ fp, resolvePath pfx i path = some fp := by
  cases pfx with
  | none => exact ⟨path, rfl⟩
  | some l =>
    cases l with
    | nil => exact ⟨path, rfl⟩
    | cons q qs =>
      exact ⟨osPathJoin ((q :: qs).get ⟨i, h q qs rfl⟩) path,
        resolvePath_cons_eq q qs i path (h q qs rfl)⟩

theorem runEntries_total (md : Table) (pfx : Option (List String)) (i : Nat)
    (h : ∀ q qs, pfx = some (q :: qs) → i < (q :: qs).length) :
    ∀ (es : List (String × String)) (acc : List (String × Record)),
      ∃ out, runEntries md pfx i es acc = some out := by
  intro es
  induction es with
  | nil => intro acc; exact ⟨acc, rfl⟩
  | cons e es ih =>
    intro acc
    cases hmd : mapGet md (baseName e.1) with
    | none =>
      obtain ⟨out, hout⟩ := ih acc
      exact ⟨out, by rw [runEntries_cons_skip md pfx i e es acc hmd]; exact hout⟩
    | some row =>
      obtain ⟨fp, hfp⟩ := resolvePath_total pfx i e.1 h
      obtain ⟨out, hout⟩ := ih (acc ++ [(fp, mkRecord row fp e.2)])
      refine ⟨out, ?_⟩
      simp only [runEntries, stepEntry_emit md pfx i acc e row fp hmd hfp]
      exact hout

theorem runArchives_total (md : Table) (pfx : Option (List String)) :
    ∀ (ars : List (List (String × String))) (i : Nat)
      (acc : List (String × Record)),
      (∀ q qs, pfx = some (q :: qs) → i + ars.length ≤ (q :: qs).length) →
      ∃ out, runArchives md pfx i ars acc = some out := by
  intro ars
  induction ars with
  | nil => intro i acc _; exact ⟨acc, rfl⟩
  | cons ar ars ih =>
    intro i acc hlen
    have hi : ∀ q qs, pfx = some (q :: qs) → i < (q :: qs).length := by
      intro q qs hp
      have := hlen q qs hp
      simp only [List.length_cons] at this ⊢
      omega
    obtain ⟨acc', hacc'⟩ := runEntries_total md pfx i hi ar acc
    obtain ⟨out, hout⟩ := ih (i + 1) acc' (by
      intro q qs hp
      have := hlen q qs hp
      simp only [List.length_cons] at this ⊢
      omega)
    exact ⟨out, by simp only [runArchives, hacc']; exact hout⟩

theorem generateExamples_some (df : List String) (rows : List Row)
    (pfx : Option (List String)) (archives : List (List (String × String)))
    (out : List (String × Record))
    (h : generateExamples df rows pfx archives = some out) :
    ∃ md, buildMetadata df rows = some md ∧
      runArchives md pfx 0 archives [] = some out := by
  unfold generateExamples at h
  cases hmd : buildMetadata df rows with
  | none => simp only [hmd] at h; exact absurd h (by simp)
  | some md => simp only [hmd] at h; exact ⟨md, rfl, h⟩

/-! Remaining per-row helper lemmas. -/

theorem fixPath_none (row : Row) (h : mapGet row "path" = none) :
    fixPath row = none := by
  simp [fixPath, h]

theorem fixAccents_none (r : Row) (f : String) (hne : f ≠ "accents")
    (hacc : f = "accent" → mapGet r "accents" = none)
    (h : mapGet r f = none) : mapGet (fixAccents r) f = none := by
  unfold fixAccents
  cases hma : mapGet r "accents" with
  | none => exact h
  | some a =>
    have hfa : f ≠ "accent" := by
      intro he
      exact Option.noConfusion ((hacc he).symm.trans hma)
    rw [mapGet_mapErase_ne _ _ _ hne, mapGet_mapSet_ne _ _ _ _ hfa]
    exact h

theorem processRow_accent (df : List String) (row row2 : Row) (a : String)
    (hdf : "accents" ∉ df) (hpr : processRow df row = some row2)
    (ha : mapGet row "accents" = some a) :
    mapGet row2 "accent" = some a ∧ mapGet row2 "accents" = none := by
  unfold processRow at hpr
  cases hfix : fixPath row with
  | none => rw [hfix] at hpr; exact absurd hpr (by simp)
  | some r₁ =>
    rw [hfix] at hpr
    have hr₁ : mapGet r₁ "accents" = some a := by
      rw [fixPath_get_ne row r₁ "accents" (by decide) hfix]
      exact ha
    constructor
    · rw [← Option.some_inj.mp hpr]
      exact fillFields_preserves_some df _ "accent" a (fixAccents_accent r₁ a hr₁)
    · rw [← Option.some_inj.mp hpr]
      rw [fillFields_get_of_not_mem df _ "accents" hdf]
      exact fixAccents_accents r₁

theorem processRow_no_accents (df : List String) (row row2 : Row)
    (hdf : "accents" ∉ df) (hpr : processRow df row = some row2) :
    mapGet row2 "accents" = none := by
  unfold processRow at hpr
  cases hfix : fixPath row with
  | none => rw [hfix] at hpr; exact absurd hpr (by simp)
  | some r₁ =>
    rw [hfix] at hpr
    rw [← Option.some_inj.mp hpr]
    rw [fillFields_get_of_not_mem df _ "accents" hdf]
    exact fixAccents_accents r₁

/-! Claim theorems. -/

/-- C1: for every transcript row whose `path` lacks the audio-file extension
the joiner appends it before inserting, so every key of the Metadata Table
ends with the audio-file extension `.mp3`. -/
theorem claim1_metadata_keys_have_extension (rows : List Row) (md : Table)
    (k : String) (h : buildMetadata dataFields rows = some md)
    (hk : k ∈ md.map Prod.fst) : strEndsWith k ".mp3" = true := by
  obtain ⟨row', hrow'⟩ := mapGet_isSome_of_mem_keys md k hk
  rcases buildFrom_inv dataFields rows [] md k row' h hrow' with
    hm | ⟨row, _, hpr, hpath⟩
  · simp [mapGet] at hm
  · obtain ⟨p', hp', he⟩ := processRow_path dataFields row row' hpr
    exact (Option.some_inj.mp (hp'.symm.trans hpath)) ▸ he

/-- Concrete instance of C1: a row with `path = "clip1"` is stored under key
`"clip1.mp3"`, which ends with `.mp3`. -/
theorem claim1_witness : strEndsWith "clip1.mp3" ".mp3" = true :=
  claim1_metadata_keys_have_extension [[("path", "clip1")]]
    ((buildMetadata dataFields [[("path", "clip1")]]).getD []) "clip1.mp3"
    (by rfl) (by decide)

/-- C2: an archive entry whose base filename is not a Metadata Table key emits
no output record and raises no error, and processing continues with the next
entry. -/
theorem claim2_unmatched_entry_skipped (md : Table) (pfx : Option (List String))
    (i : Nat) (acc : List (String × Record)) (e : String × String)
    (es : List (String × String)) (h : mapGet md (baseName e.1) = none) :
    stepEntry md pfx i acc e = some acc ∧
      runEntries md pfx i (e :: es) acc = runEntries md pfx i es acc :=
  ⟨stepEntry_skip md pfx i acc e h, runEntries_cons_skip md pfx i e es acc h⟩

/-- Concrete instance of C2: entry `b.mp3` with a table containing only
`a.mp3` is skipped silently. -/
theorem claim2_witness :
    stepEntry [("a.mp3", [("path", "a.mp3")])] none 0 [] ("b.mp3", "B") =
        some [] ∧
      runEntries [("a.mp3", [("path", "a.mp3")])] none 0 [("b.mp3", "B")] [] =
        runEntries [("a.mp3", [("path", "a.mp3")])] none 0 [] [] :=
  claim2_unmatched_entry_skipped [("a.mp3", [("path", "a.mp3")])] none 0 []
    ("b.mp3", "B") [] (by decide)

/-- C8: two runs of the joiner on equal transcript sources, prefix lists and
archive-entry sequences emit identical output sequences, order included (the
embedded joiner is a deterministic function of its inputs). -/
theorem claim8_deterministic (df df' : List String) (rows rows' : List Row)
    (pfx pfx' : Option (List String))
    (archives archives' : List (List (String × String)))
    (h1 : df = df') (h2 : rows = rows') (h3 : pfx = pfx')
    (h4 : archives = archives') :
    generateExamples df rows pfx archives =
      generateExamples df' rows' pfx' archives' := by
  rw [h1, h2, h3, h4]

/-- Concrete instance of C8: two identical runs agree. -/
theorem claim8_witness :
    generateExamples dataFields [[("path", "a.mp3")]] none [[("a.mp3", "B")]] =
      generateExamples dataFields [[("path", "a.mp3")]] none
        [[("a.mp3", "B")]] :=
  claim8_deterministic dataFields dataFields [[("path", "a.mp3")]]
    [[("path", "a.mp3")]] none none [[("a.mp3", "B")]] [[("a.mp3", "B")]]
    rfl rfl rfl rfl

/-- C9: in every emitted pair, the record's `path` field and the record's
audio path both equal the emitted key. -/
theorem claim9_key_path_audio_agree (df : List String) (rows : List Row)
    (pfx : Option (List String)) (archives : List (List (String × String)))
    (out : List (String × Record)) (k : String) (rec : Record)
    (h : generateExamples df rows pfx archives = some out)
    (hm : (k, rec) ∈ out) :
    mapGet rec "path" = some (Value.str k) ∧
      ∃ b, mapGet rec "audio" = some (Value.audio k b) := by
  obtain ⟨md, _, hrun⟩ := generateExamples_some df rows pfx archives out h
  rcases runArchives_mem md pfx archives 0 [] out k rec hrun hm with
    h0 | ⟨j, ar, hj, e, he, row, hrow, hrp, hrec⟩
  · simp at h0
  · subst hrec
    exact ⟨mkRecord_path row k e.2, e.2, mkRecord_audio row k e.2⟩

/-- Concrete output pair of the run used to witness C9. -/
def exOut9 : List (String × Record) :=
  (generateExamples dataFields [[("path", "a.mp3")]] none
    [[("a.mp3", "B")]]).getD []

/-- Record of the single emitted pair of that run. -/
def exRec9 : Record := (exOut9.map Prod.snd).headD []

/-- Concrete instance of C9. -/
theorem claim9_witness :
    mapGet exRec9 "path" = some (Value.str "a.mp3") ∧
      ∃ b, mapGet exRec9 "audio" = some (Value.audio "a.mp3" b) :=
  claim9_key_path_audio_agree dataFields [[("path", "a.mp3")]] none
    [[("a.mp3", "B")]] exOut9 "a.mp3" exRec9 (by rfl) (by decide)

/-- C4: when a row carrying the legacy `accents` field is stored in the
Metadata Table, the stored row holds the legacy value under the modern
`accent` field and no longer has an `accents` key. -/
theorem claim4_accents_migrated (rows : List Row) (md : Table) (k : String)
    (row row' : Row) (a : String)
    (hb : buildMetadata dataFields rows = some md)
    (hk : mapGet md k = some row')
    (hpr : processRow dataFields row = some row')
    (ha : mapGet row "accents" = some a) :
    mapGet row' "accent" = some a ∧ mapGet row' "accents" = none :=
  processRow_accent dataFields row row' a (by decide) hpr ha

/-- Transcript row with the legacy accents field, for the C4 witness. -/
def exRow4 : Row := [("path", "c"), ("accents", "southern")]

/-- Metadata table built from that row. -/
def exMd4 : Table := (buildMetadata dataFields [exRow4]).getD []

/-- The stored, processed form of that row. -/
def exRow4' : Row := (mapGet exMd4 "c.mp3").getD []

/-- Concrete instance of C4. -/
theorem claim4_witness :
    mapGet exRow4' "accent" = some "southern" ∧
      mapGet exRow4' "accents" = none :=
  claim4_accents_migrated [exRow4] exMd4 "c.mp3" exRow4 exRow4' "southern"
    (by rfl) (by rfl) (by rfl) (by rfl)

/-- C6: with duplicate `path` keys in the transcript the joiner raises no
error or warning, and the Metadata Table maps the duplicated key to the last
row of the transcript carrying it. -/
theorem claim6_duplicate_last_wins (rs1 rs2 : List Row) (row row' : Row)
    (k : String)
    (hall : ∀ r ∈ rs1 ++ row :: rs2, (rowKey dataFields r).isSome = true)
    (hpr : processRow dataFields row = some row')
    (hk : mapGet row' "path" = some k)
    (hlater : ∀ r ∈ rs2, rowKey dataFields r ≠ some k) :
    ∃ md, buildMetadata dataFields (rs1 ++ row :: rs2) = some md ∧
      mapGet md k = some row' := by
  obtain ⟨m1, hm1⟩ := buildFrom_total dataFields rs1 []
    (fun r hr => hall r (List.mem_append_left _ hr))
  obtain ⟨md, hmd⟩ := buildFrom_total dataFields rs2 (mapSet m1 k row')
    (fun r hr => hall r (List.mem_append_right _ (List.mem_cons_of_mem row hr)))
  refine ⟨md, ?_, ?_⟩
  · unfold buildMetadata
    rw [buildFrom_append dataFields (row :: rs2) rs1 []]
    simp only [hm1]
    rw [buildFrom_cons_step dataFields m1 row row' rs2 k hpr hk]
    exact hmd
  · rw [buildFrom_stable dataFields rs2 (mapSet m1 k row') md k hmd hlater]
    exact mapGet_mapSet_self m1 k row'

/-- First of two duplicate rows, for the C6 witness. -/
def exDup1 : Row := [("path", "a.mp3"), ("sentence", "one")]

/-- Second (winning) duplicate row, for the C6 witness. -/
def exDup2 : Row := [("path", "a.mp3"), ("sentence", "two")]

/-- Concrete instance of C6: the second duplicate wins and no error occurs. -/
theorem claim6_witness :
    ∃ md, buildMetadata dataFields ([exDup1] ++ exDup2 :: []) = some md ∧
      mapGet md "a.mp3" = some ((processRow dataFields exDup2).getD []) :=
  claim6_duplicate_last_wins [exDup1] [] exDup2
    ((processRow dataFields exDup2).getD []) "a.mp3"
    (by decide) (by rfl) (by rfl) (by decide)

/-- C7: a matching archive entry emits exactly one pair whose key is the
resolved final path — the raw entry path when no extraction-prefix list is
supplied (or it is empty), the prefix-joined path otherwise — and whose
record carries the entry's binary content in its audio field. -/
theorem claim7_resolved_path_and_bytes (md : Table) (pfx : Option (List String))
    (i : Nat) (acc : List (String × Record)) (e : String × String) (row : Row)
    (fp q : String) (qs : List String) (hq : i < (q :: qs).length)
    (hrow : mapGet md (baseName e.1) = some row)
    (hfp : resolvePath pfx i e.1 = some fp) :
    stepEntry md pfx i acc e = some (acc ++ [(fp, mkRecord row fp e.2)]) ∧
      mapGet (mkRecord row fp e.2) "audio" = some (Value.audio fp e.2) ∧
      resolvePath none i e.1 = some e.1 ∧
      resolvePath (some []) i e.1 = some e.1 ∧
      resolvePath (some (q :: qs)) i e.1 =
        some (osPathJoin ((q :: qs).get ⟨i, hq⟩) e.1) :=
  ⟨stepEntry_emit md pfx i acc e row fp hrow hfp,
    mkRecord_audio row fp e.2, rfl, rfl, resolvePath_cons_eq q qs i e.1 hq⟩

/-- Concrete instance of C7: one matching entry under prefix list `["pre"]`. -/
theorem claim7_witness :
    stepEntry [("a.mp3", [("path", "a.mp3")])] (some ["pre"]) 0 []
        ("d/a.mp3", "B") =
      some [("pre/d/a.mp3",
        mkRecord [("path", "a.mp3")] "pre/d/a.mp3" "B")] ∧
      mapGet (mkRecord [("path", "a.mp3")] "pre/d/a.mp3" "B") "audio" =
        some (Value.audio "pre/d/a.mp3" "B") ∧
      resolvePath none 0 "d/a.mp3" = some "d/a.mp3" ∧
      resolvePath (some []) 0 "d/a.mp3" = some "d/a.mp3" ∧
      resolvePath (some ["pre"]) 0 "d/a.mp3" =
        some (osPathJoin ((["pre"] : List String).get ⟨0, by decide⟩)
          "d/a.mp3") :=
  claim7_resolved_path_and_bytes [("a.mp3", [("path", "a.mp3")])]
    (some ["pre"]) 0 [] ("d/a.mp3", "B") [("path", "a.mp3")] "pre/d/a.mp3"
    "pre" [] (by decide) (by decide) (by rfl)

/-- C10: the extraction-prefix list is applied exactly when it is truthy (a
supplied, non-empty list), and when every non-empty prefix list has at least
as many entries as there are archives, the indexed access is in bounds and
the whole run raises no error. -/
theorem claim10_prefix_all_or_nothing (df : List String) (rows : List Row)
    (pfx : Option (List String)) (archives : List (List (String × String)))
    (md : Table) (i : Nat) (p q : String) (qs : List String)
    (hq : i < (q :: qs).length)
    (hb : buildMetadata df rows = some md)
    (hlen : ∀ q' qs', pfx = some (q' :: qs') →
      archives.length ≤ (q' :: qs').length) :
    resolvePath none i p = some p ∧
      resolvePath (some []) i p = some p ∧
      resolvePath (some (q :: qs)) i p =
        some (osPathJoin ((q :: qs).get ⟨i, hq⟩) p) ∧
      ∃ out, generateExamples df rows pfx archives = some out := by
  refine ⟨rfl, rfl, resolvePath_cons_eq q qs i p hq, ?_⟩
  obtain ⟨out, hout⟩ := runArchives_total md pfx archives 0 []
    (fun q' qs' hp => by simpa using hlen q' qs' hp)
  exact ⟨out, by unfold generateExamples; simp only [hb]; exact hout⟩

/-- Concrete instance of C10: one archive, prefix list `["pre"]`. -/
theorem claim10_witness :
    resolvePath none 0 "x.mp3" = some "x.mp3" ∧
      resolvePath (some []) 0 "x.mp3" = some "x.mp3" ∧
      resolvePath (some ["pre"]) 0 "x.mp3" =
        some (osPathJoin ((["pre"] : List String).get ⟨0, by decide⟩)
          "x.mp3") ∧
      ∃ out, generateExamples dataFields [[("path", "a.mp3")]] (some ["pre"])
        [[("a.mp3", "B")]] = some out :=
  claim10_prefix_all_or_nothing dataFields [[("path", "a.mp3")]]
    (some ["pre"]) [[("a.mp3", "B")]]
    ((buildMetadata dataFields [[("path", "a.mp3")]]).getD []) 0 "x.mp3"
    "pre" [] (by decide) (by rfl)
    (by intro q' qs' hp; simp [List.length_cons])

/-- C3 as stated is false: the emitted key is the resolved full path, which
need not belong to the set of archive-entry base filenames nor to the set of
Metadata Table keys.  Concretely, entry `d/a.mp3` matches table key `a.mp3`
but is emitted under key `d/a.mp3`. -/
theorem claim3_counterexample :
    ∃ out, generateExamples dataFields [[("path", "a.mp3")]] none
        [[("d/a.mp3", "B")]] = some out ∧
      ∃ k ∈ out.map Prod.fst,
        ¬ (k ∈ ([[("d/a.mp3", "B")]] :
              List (List (String × String))).flatten.map (fun e => baseName e.1) ∧
           k ∈ ((buildMetadata dataFields
              [[("path", "a.mp3")]]).getD []).map Prod.fst) :=
  ⟨(generateExamples dataFields [[("path", "a.mp3")]] none
      [[("d/a.mp3", "B")]]).getD [], rfl, "d/a.mp3", by decide, by decide⟩

/-- C3 (amended): for every run, the set of **base filenames** of emitted
keys is a subset of the intersection of the set of archive-entry base
filenames and the set of Metadata Table keys. -/
theorem claim3_amended_basenames_subset (df : List String) (rows : List Row)
    (pfx : Option (List String)) (archives : List (List (String × String)))
    (md : Table) (out : List (String × Record)) (k : String)
    (hb : buildMetadata df rows = some md)
    (hgen : generateExamples df rows pfx archives = some out)
    (hk : k ∈ out.map Prod.fst) :
    baseName k ∈ archives.flatten.map (fun e => baseName e.1) ∧
      baseName k ∈ md.map Prod.fst := by
  rcases List.mem_map.mp hk with ⟨p, hpmem, rfl⟩
  obtain ⟨md', hmd', hrun⟩ := generateExamples_some df rows pfx archives out hgen
  have hmdeq : md' = md := Option.some_inj.mp (hmd'.symm.trans hb)
  subst hmdeq
  rcases runArchives_mem md' pfx archives 0 [] out p.1 p.2 hrun
      (by simpa using hpmem) with
    h0 | ⟨j, ar, hj, e, he, row, hrow, hrp, hrec⟩
  · simp at h0
  · have hbn : baseName p.1 = baseName e.1 :=
      baseName_resolvePath pfx (0 + j) e.1 p.1 hrp
    constructor
    · rw [hbn]
      exact List.mem_map.mpr ⟨e, List.mem_flatten.mpr ⟨ar, List.get?_mem hj, he⟩,
        rfl⟩
    · rw [hbn]
      exact mem_keys_of_mapGet md' (baseName e.1) row hrow

/-- Concrete instance of the amended C3, on the counterexample's input. -/
theorem claim3_amended_witness :
    baseName "d/a.mp3" ∈ ([[("d/a.mp3", "B")]] :
        List (List (String × String))).flatten.map (fun e => baseName e.1) ∧
      baseName "d/a.mp3" ∈
        ((buildMetadata dataFields [[("path", "a.mp3")]]).getD
          []).map Prod.fst :=
  claim3_amended_basenames_subset dataFields [[("path", "a.mp3")]] none
    [[("d/a.mp3", "B")]]
    ((buildMetadata dataFields [[("path", "a.mp3")]]).getD [])
    ((generateExamples dataFields [[("path", "a.mp3")]] none
      [[("d/a.mp3", "B")]]).getD []) "d/a.mp3"
    (by rfl) (by rfl) (by decide)

/-- Output of the run used against C5: one transcript row without an `audio`
column, one matching archive entry. -/
def exOut5 : List (String × Record) :=
  (generateExamples dataFields [[("path", "b.mp3"), ("sentence", "hi")]] none
    [[("b.mp3", "BB")]]).getD []

/-- Record of the single emitted pair of that run. -/
def exRec5 : Record := (exOut5.map Prod.snd).headD []

/-- C5 as stated is false for the schema field `audio`: it is declared in the
schema and absent from the transcript row, yet the emitted record carries the
audio object `{"path": ..., "bytes": ...}` rather than the empty string. -/
theorem claim5_counterexample :
    ∃ out rec,
      generateExamples dataFields [[("path", "b.mp3"), ("sentence", "hi")]]
          none [[("b.mp3", "BB")]] = some out ∧
        ("b.mp3", rec) ∈ out ∧
        "audio" ∈ dataFields ∧
        mapGet [("path", "b.mp3"), ("sentence", "hi")] "audio" = none ∧
        mapGet rec "audio" ≠ some (Value.str "") :=
  ⟨exOut5, exRec5, rfl, by decide, by decide, rfl, by decide⟩

/-- C5 (amended): every schema field other than `audio` that is absent from a
transcript row — and, for `accent`, provided the legacy `accents` key is also
absent — appears in the record emitted for that row with the empty string as
its value. -/
theorem claim5_amended_missing_fields_empty (row row' : Row) (f fp b : String)
    (hf : f ∈ dataFields) (hfa : f ≠ "audio")
    (hacc : f = "accent" → mapGet row "accents" = none)
    (hnone : mapGet row f = none)
    (hpr : processRow dataFields row = some row') :
    mapGet (mkRecord row' fp b) f = some (Value.str "") := by
  have hfp : f ≠ "path" := by
    intro he
    subst he
    simp only [processRow, fixPath_none row hnone] at hpr
    exact absurd hpr (by simp)
  rw [mkRecord_other row' fp b f hfp hfa]
  unfold processRow at hpr
  cases hfix : fixPath row with
  | none => rw [hfix] at hpr; exact absurd hpr (by simp)
  | some r₁ =>
    rw [hfix] at hpr
    have h1 : mapGet r₁ f = none := by
      rw [fixPath_get_ne row r₁ f hfp hfix]
      exact hnone
    have hne2 : f ≠ "accents" := by
      intro he
      subst he
      exact absurd hf (by decide)
    have hacc1 : f = "accent" → mapGet r₁ "accents" = none := by
      intro he
      rw [fixPath_get_ne row r₁ "accents" (by decide) hfix]
      exact hacc he
    have h2 : mapGet (fixAccents r₁) f = none :=
      fixAccents_none r₁ f hne2 hacc1 h1
    rw [← Option.some_inj.mp hpr,
      fillFields_fills dataFields (fixAccents r₁) f hf h2]
    rfl

/-- Concrete instance of the amended C5: field `sentence` is absent from the
row, and the emitted record carries it as the empty string. -/
theorem claim5_amended_witness :
    mapGet (mkRecord ((processRow dataFields
        [("path", "c.mp3")]).getD []) "c.mp3" "B") "sentence" =
      some (Value.str "") :=
  claim5_amended_missing_fields_empty [("path", "c.mp3")]
    ((processRow dataFields [("path", "c.mp3")]).getD []) "sentence" "c.mp3"
    "B" (by decide) (by decide) (fun h => absurd h (by decide)) (by rfl)
    (by rfl)

end CommonVoice
